import Mathlib

set_option maxHeartbeats 1600000

namespace CsvPlotter

/-! Shallow embedding of the CSV_Plotter core: `CsvService` (schema inference
and plot-field construction), `SyncService` (viewport coordination), and the
chart components' decimation, state-segment and nearest-point logic.
Timestamps are modelled as `Int` (JavaScript `Date.getTime()` milliseconds);
JavaScript string primitives (`trim`, `split`, `includes`, `toLowerCase`) are
modelled by executable functions on the character list of a `String`. -/

variable {α : Type}

/-- A time range as used by `SyncService`: `start`/`stop` model the
`start`/`end` instants of the source's `TimeRange` (`end` is a Lean keyword). -/
structure TimeRange where
  start : Int
  stop : Int
deriving DecidableEq, Repr

/-- The mutable state of `SyncService`: `dataBounds` (set by `setDataBounds`,
initially `null`) and the current value of the `zoomSubject`
`BehaviorSubject<TimeRange | null>` (initially `null`). -/
structure SyncState where
  dataBounds : Option TimeRange
  zoomValue : Option TimeRange
deriving DecidableEq, Repr

/-- A freshly constructed `SyncService`: no data bounds, no zoom value. -/
def initialSyncState : SyncState := ⟨none, none⟩

/-- `SyncService.setDataBounds`. -/
def setDataBounds (s : SyncState) (bounds : TimeRange) : SyncState :=
  { s with dataBounds := some bounds }

/-- `SyncService.emitZoom`: when `dataBounds` is set the requested range is
clamped componentwise, `clampedStart = max(range.start, bounds.start)` and
`clampedEnd = min(range.end, bounds.end)`, and the clamped range becomes the
`zoomSubject`'s value; without bounds the request is stored unchanged. -/
def emitZoom (s : SyncState) (timeRange : TimeRange) : SyncState :=
  match s.dataBounds with
  | some b =>
      { s with zoomValue := some ⟨max timeRange.start b.start, min timeRange.stop b.stop⟩ }
  | none => { s with zoomValue := some timeRange }

/-- `SyncService.getCurrentZoom`: the `zoomSubject`'s current value. -/
def getCurrentZoom (s : SyncState) : Option TimeRange := s.zoomValue

/-- `SyncService.clearZoom`. -/
def clearZoom (s : SyncState) : SyncState := { s with zoomValue := none }

/-- The whitespace characters stripped by JavaScript `String.prototype.trim`
(the ones relevant to this data format). -/
def isJsSpace (c : Char) : Bool := c = ' ' || c = '\t' || c = '\n' || c = '\r'

/-- JavaScript `value.trim()`. -/
def jsTrim (s : String) : String :=
  String.mk (((s.toList.dropWhile isJsSpace).reverse.dropWhile isJsSpace).reverse)

/-- Helper for `splitChar`: split a character list at a separator; the result
always has at least one (possibly empty) piece, matching JavaScript
`String.prototype.split` with a one-character separator. -/
def splitCharAux (sep : Char) : List Char → List (List Char)
  | [] => [[]]
  | c :: cs =>
    let r := splitCharAux sep cs
    if c = sep then [] :: r
    else
      match r with
      | [] => [[c]]
      | h :: t => (c :: h) :: t

/-- JavaScript `s.split(sep)` for a one-character separator: the source only
splits on `','` and `'\n'`. `"".split(sep)` is `[""]`. -/
def splitChar (sep : Char) (s : String) : List String :=
  (splitCharAux sep s.toList).map fun l => String.mk l

/-- Model of the JavaScript test
`!isNaN(parseFloat(value)) && isFinite(parseFloat(value))` on an
already-trimmed string: `parseFloat` reads the longest numeric-literal prefix
(optional sign, then digits, or a decimal point followed by at least one
digit); `Infinity` and strings with no such prefix are not finite. Exponent
overflow to infinity (such as `1e999`) is not modelled. -/
def jsParseFloatFinite (s : String) : Bool :=
  let cs := match s.toList with
    | '+' :: t => t
    | '-' :: t => t
    | t => t
  match cs with
  | [] => false
  | '.' :: t => !(t.takeWhile Char.isDigit).isEmpty
  | c :: _ => c.isDigit

/-- JavaScript `s.includes(pat)`: substring containment. -/
def strContains (s pat : String) : Bool :=
  (List.range (s.toList.length + 1)).any fun i => pat.toList.isPrefixOf (s.toList.drop i)

/-- JavaScript `s.toLowerCase()` (ASCII, which covers the header matching). -/
def toLowerStr (s : String) : String := String.mk (s.toList.map Char.toLower)

/-- The loop accumulator of `CsvService.isNumericField`. -/
structure NumScan where
  hasStringData : Bool
  hasNumericData : Bool
  totalValues : Nat
deriving DecidableEq, Repr

/-- One iteration of `CsvService.isNumericField`'s loop over the column.
`cell` is `values[columnIndex]` of one data line (`none` when the row has
fewer fields than the column index). The JavaScript truthiness test
`if (values[columnIndex])` skips absent cells and the raw empty string;
`totalValues` then counts the cell, and a cell whose trimmed value is not one
of the null tokens is classified by the numeric test `parse`. -/
def numScanStep (parse : String → Bool) (acc : NumScan) (cell : Option String) : NumScan :=
  match cell with
  | none => acc
  | some raw =>
    if raw = "" then acc
    else
      let value := jsTrim raw
      let acc1 := { acc with totalValues := acc.totalValues + 1 }
      if value ≠ "" ∧ value ≠ "null" ∧ value ≠ "NULL" ∧ value ≠ "undefined" then
        if parse value then { acc1 with hasNumericData := true }
        else { acc1 with hasStringData := true }
      else acc1

/-- `CsvService.isNumericField` for one column, abstracted over the numeric
test `parse` (instantiated with `jsParseFloatFinite` for the source's
`parseFloat`-based test): numeric iff the scan saw numeric data, no string
data, and at least one counted value. -/
def isNumericField (parse : String → Bool) (cells : List (Option String)) : Bool :=
  let s := cells.foldl (numScanStep parse) ⟨false, false, 0⟩
  s.hasNumericData && !s.hasStringData && decide (0 < s.totalValues)

/-- The spec's notion of a missing cell: absent because the row has fewer
fields than headers, or, after trimming, the empty string or one of the
literal tokens `null`, `NULL`, `undefined`. -/
def isMissingCell : Option String → Bool
  | none => true
  | some raw =>
    jsTrim raw = "" || jsTrim raw = "null" || jsTrim raw = "NULL" || jsTrim raw = "undefined"

/-- The trimmed non-missing values of a column, in row order. -/
def nonMissingValues (cells : List (Option String)) : List String :=
  cells.filterMap fun c =>
    if isMissingCell c then none
    else c.map jsTrim

/-- A `PlotField` as produced by `CsvService.parseCsv` (the display label,
a cosmetic reformat of the key, carries no claim and is omitted);
`dataType` is the source's `'number'` or `'string'` tag. -/
structure PlotField where
  key : String
  selected : Bool
  color : String
  dataType : String
deriving DecidableEq, Repr

/-- `CsvMetadata` from `data.model.ts`. -/
structure CsvMetadata where
  headers : List String
  numericFields : List String
  categoricalFields : List String
  dateTimeField : Option String
  latitudeField : Option String
  longitudeField : Option String
deriving DecidableEq, Repr

/-- The fixed palette `DEFAULT_COLORS` from `data.model.ts`. -/
def DEFAULT_COLORS : List String :=
  ["#1f77b4", "#ff7f0e", "#2ca02c", "#d62728", "#9467bd",
   "#8c564b", "#e377c2", "#7f7f7f", "#bcbd22", "#17becf",
   "#aec7e8", "#ffbb78", "#98df8a", "#ff9896", "#c5b0d5"]

/-- The raw cells of column `i`: `line.split(',')[i]` per data line
(`none` when the line has fewer fields). -/
def columnCells (dataLines : List String) (i : Nat) : List (Option String) :=
  dataLines.map fun line => (splitChar ',' line)[i]?

/-- One iteration of `CsvService.analyzeHeaders`' loop: header rules in
priority order (datetime, latitude, longitude, each accepted only while its
field is still unset), else the numeric test on the column decides numeric
versus categorical. `ih` is the `(index, header)` pair. -/
def analyzeStep (parse : String → Bool) (dataLines : List String)
    (m : CsvMetadata) (ih : Nat × String) : CsvMetadata :=
  let header := ih.2
  let lowerHeader := toLowerStr header
  if m.dateTimeField.isNone &&
      (strContains lowerHeader "date" || strContains lowerHeader "time") then
    { m with dateTimeField := some header }
  else if m.latitudeField.isNone &&
      (strContains lowerHeader "lat" || lowerHeader == "y") then
    { m with latitudeField := some header }
  else if m.longitudeField.isNone &&
      (strContains lowerHeader "lon" || strContains lowerHeader "lng" || lowerHeader == "x") then
    { m with longitudeField := some header }
  else if isNumericField parse (columnCells dataLines ih.1) then
    { m with numericFields := m.numericFields ++ [header] }
  else
    { m with categoricalFields := m.categoricalFields ++ [header] }

/-- `CsvService.analyzeHeaders`. -/
def analyzeHeaders (parse : String → Bool) (headers dataLines : List String) :
    CsvMetadata :=
  headers.enum.foldl (analyzeStep parse dataLines) ⟨headers, [], [], none, none, none⟩

/-- The plot-field construction at the end of `CsvService.parseCsv`: numeric
fields (minus any whose name equals the latitude or longitude field name),
auto-selecting the first 2, then categorical fields, auto-selecting the
first 1, with colors cycling through `DEFAULT_COLORS` over the
concatenation. -/
def makePlotFields (md : CsvMetadata) : List PlotField :=
  let numericKeys := md.numericFields.filter fun f =>
    (some f != md.latitudeField) && (some f != md.longitudeField)
  let numericPlotFields := numericKeys.enum.map fun jf =>
    (⟨jf.2, decide (jf.1 < 2),
      DEFAULT_COLORS.getD (jf.1 % DEFAULT_COLORS.length) "", "number"⟩ : PlotField)
  let categoricalPlotFields := md.categoricalFields.enum.map fun jf =>
    (⟨jf.2, decide (jf.1 < 1),
      DEFAULT_COLORS.getD ((numericPlotFields.length + jf.1) % DEFAULT_COLORS.length) "",
      "string"⟩ : PlotField)
  numericPlotFields ++ categoricalPlotFields

/-- `CsvService.parseCsv`, header and schema side: `csvText.trim().split('\n')`,
headers from the first line (`split('\n')` never yields an empty array, so
`lines[0]` is always defined — on empty input it is `""`), then
`analyzeHeaders` and the plot-field list. The source contains no `throw`; the
function is total and never reports an error. Per-row value assignment
carries no claim of its own and is not modelled here. -/
def parseCsv (parse : String → Bool) (csvText : String) : CsvMetadata × List PlotField :=
  let lines := splitChar '\n' (jsTrim csvText)
  let headers := (splitChar ',' (lines.headD "")).map jsTrim
  let metadata := analyzeHeaders parse headers (lines.drop 1)
  (metadata, makePlotFields metadata)

/-- One record as seen by the state chart: the timestamp
(`datetime.getTime()`) and the charted field's value `dataPoint[field.key]`,
`none` for `null`/`undefined`. -/
structure DataPoint where
  ts : Int
  val : Option String
deriving DecidableEq, Repr

/-- One closed run of `createStateSegments`: a Segment when `value` is
`some state`, a Gap when `value` is `none`. `start`/`stop` model the
source's `start`/`end` timestamps. -/
structure Run where
  value : Option String
  start : Int
  stop : Int
deriving DecidableEq, Repr

/-- The run-break test of `createStateSegments`'s loop:
`isNewNull !== isCurrentNull || (!isNewNull && String(newState) !== String(currentState))`. -/
def runBreak (cur new : Option String) : Bool :=
  match cur, new with
  | none, none => false
  | none, some _ => true
  | some _, none => true
  | some a, some b => a != b

/-- The loop of `createStateSegments` over `data[1..]`, carrying the current
run `(cur, start)`; on a break the prior run closes at the current record's
timestamp, and the final run closes at `lastTs` (the last record's
timestamp). -/
def buildRuns (cur : Option String) (start lastTs : Int) : List DataPoint → List Run
  | [] => [⟨cur, start, lastTs⟩]
  | d :: rest =>
    if runBreak cur d.val then ⟨cur, start, d.ts⟩ :: buildRuns d.val d.ts lastTs rest
    else buildRuns cur start lastTs rest

/-- `StateChartComponent.createStateSegments`, as the chronological list of
closed runs. The source pushes each closed run into its `segments` array when
non-missing and into its `nullGaps` array when missing, so those two arrays
are exactly the partition of this list by `Run.value.isSome`, each keeping
this (start-ordered) relative order. -/
def createStateSegments (data : List DataPoint) : List Run :=
  match data with
  | [] => []
  | d :: rest => buildRuns d.val d.ts ((d :: rest).getLast (List.cons_ne_nil d rest)).ts rest

/-- `ChartComponent.decimateData` (the spec's `decimateForOverview` with
target 2000): unchanged when at most 2000 records, else keep every `step`-th
record with `step = ceil(length / 2000)` and append the last record when the
loop did not keep it. The source's final check compares
`decimated[decimated.length - 1] !== data[data.length - 1]` by object
identity and rows are distinct objects, so it holds exactly when the last
kept index is not the last index, i.e. when `(length - 1) % step ≠ 0`. -/
def decimateData (data : List α) : List α :=
  if data.length ≤ 2000 then data
  else
    let step := (data.length + 1999) / 2000
    let kept := (List.range data.length).filter fun i => i % step = 0
    let decimated := kept.filterMap fun i => data[i]?
    if (data.length - 1) % step = 0 then decimated
    else decimated ++ data.getLast?.toList

/-- The binary search of `d3.bisector(d => d.datetime).left` as used in
`onMouseMoveThrottled`: while `lo < hi`, probe `mid = (lo + hi) / 2` and
recurse right when `data[mid].datetime < q`, else left. The JavaScript loop
terminates because the interval shrinks; here the structural `fuel` argument
(always called with `fuel = data.length ≥ hi - lo`) plays that role. -/
def bisectLoop (data : List DataPoint) (q : Int) : Nat → Nat → Nat → Nat
  | 0, lo, _ => lo
  | fuel + 1, lo, hi =>
    if lo < hi then
      let mid := (lo + hi) / 2
      if (data.getD mid ⟨0, none⟩).ts < q then bisectLoop data q fuel (mid + 1) hi
      else bisectLoop data q fuel lo mid
    else lo

/-- The lower-bound insertion index `bisect(this.data, date)`. -/
def bisectLeft (data : List DataPoint) (q : Int) : Nat :=
  bisectLoop data q data.length 0 data.length

/-- The nearest-point selection of `onMouseMoveThrottled`: index 0 yields the
first record, index `length` the last, otherwise
`(date - left.datetime > right.datetime - date) ? right : left` — the right
neighbor only when it is strictly closer, the left neighbor on ties. `none`
only when the data list is empty (the source then reads `undefined` and its
`if (closestPoint)` guard skips the hover). -/
def nearestPoint (data : List DataPoint) (q : Int) : Option DataPoint :=
  let index := bisectLeft data q
  if index = 0 then data[0]?
  else if index = data.length then data[data.length - 1]?
  else
    match data[index - 1]?, data[index]? with
    | some l, some r => some (if q - l.ts > r.ts - q then r else l)
    | _, _ => none

/-! Helper lemmas. -/

theorem numScanStep_none (parse : String → Bool) (a : NumScan) :
    numScanStep parse a none = a := rfl

theorem numScanStep_missing (parse : String → Bool) (a : NumScan) (raw : String)
    (h0 : raw ≠ "") (hm : isMissingCell (some raw) = true) :
    numScanStep parse a (some raw) = { a with totalValues := a.totalValues + 1 } := by
  simp only [isMissingCell, Bool.or_eq_true, decide_eq_true_eq] at hm
  have hc : ¬(jsTrim raw ≠ "" ∧ jsTrim raw ≠ "null" ∧ jsTrim raw ≠ "NULL" ∧
      jsTrim raw ≠ "undefined") := by tauto
  simp only [numScanStep, if_neg h0, if_neg hc]

theorem numScanStep_present (parse : String → Bool) (a : NumScan) (raw : String)
    (h0 : raw ≠ "") (hm : isMissingCell (some raw) = false) :
    numScanStep parse a (some raw) =
      (if parse (jsTrim raw) then
        { a with totalValues := a.totalValues + 1, hasNumericData := true }
      else
        { a with totalValues := a.totalValues + 1, hasStringData := true }) := by
  simp only [isMissingCell, Bool.or_eq_false_iff, decide_eq_false_iff_not] at hm
  have hc : jsTrim raw ≠ "" ∧ jsTrim raw ≠ "null" ∧ jsTrim raw ≠ "NULL" ∧
      jsTrim raw ≠ "undefined" := by tauto
  simp only [numScanStep, if_neg h0, if_pos hc]

theorem nonMissingValues_cons_missing (c : Option String)
    (hm : isMissingCell c = true) (cs : List (Option String)) :
    nonMissingValues (c :: cs) = nonMissingValues cs := by
  simp [nonMissingValues, List.filterMap_cons, hm]

theorem nonMissingValues_cons_present (raw : String)
    (hm : isMissingCell (some raw) = false) (cs : List (Option String)) :
    nonMissingValues (some raw :: cs) = jsTrim raw :: nonMissingValues cs := by
  simp [nonMissingValues, List.filterMap_cons, hm]

theorem numScan_foldl_spec (parse : String → Bool) (cells : List (Option String))
    (a : NumScan) :
    (cells.foldl (numScanStep parse) a).hasNumericData
        = (a.hasNumericData || (nonMissingValues cells).any parse) ∧
    (cells.foldl (numScanStep parse) a).hasStringData
        = (a.hasStringData || (nonMissingValues cells).any fun v => !parse v) ∧
    a.totalValues + (nonMissingValues cells).length
        ≤ (cells.foldl (numScanStep parse) a).totalValues := by
  induction cells generalizing a with
  | nil => simp [nonMissingValues]
  | cons c cs ih =>
    rw [List.foldl_cons]
    cases hm : isMissingCell c with
    | true =>
      rw [nonMissingValues_cons_missing c hm]
      match c with
      | none =>
        rw [numScanStep_none]
        exact ih a
      | some raw =>
        by_cases h0 : raw = ""
        · subst h0
          have hstep : numScanStep parse a (some "") = a := rfl
          rw [hstep]
          exact ih a
        · rw [numScanStep_missing parse a raw h0 hm]
          obtain ⟨i1, i2, i3⟩ := ih { a with totalValues := a.totalValues + 1 }
          exact ⟨i1, i2, by simp only at i3 ⊢; omega⟩
    | false =>
      match c with
      | none => simp [isMissingCell] at hm
      | some raw =>
        have h0 : raw ≠ "" := by
          intro h
          subst h
          rw [show isMissingCell (some "") = true from by decide] at hm
          exact Bool.noConfusion hm
        rw [nonMissingValues_cons_present raw hm]
        rw [numScanStep_present parse a raw h0 hm]
        by_cases hp : parse (jsTrim raw) = true
        · rw [if_pos hp]
          obtain ⟨i1, i2, i3⟩ :=
            ih { a with totalValues := a.totalValues + 1, hasNumericData := true }
          refine ⟨?_, ?_, ?_⟩
          · simp [i1, hp]
          · simp [i2, hp]
          · simp only [List.length_cons] at i3 ⊢
            omega
        · rw [if_neg hp]
          simp only [Bool.not_eq_true] at hp
          obtain ⟨i1, i2, i3⟩ :=
            ih { a with totalValues := a.totalValues + 1, hasStringData := true }
          refine ⟨?_, ?_, ?_⟩
          · simp [i1, hp]
          · simp [i2, hp]
          · simp only [List.length_cons] at i3 ⊢
            omega

theorem range_filter_mod (s : Nat) (hs : 0 < s) (n : Nat) :
    (List.range n).filter (fun i => decide (i % s = 0)) =
      (List.range ((n + s - 1) / s)).map (fun j => j * s) := by
  induction n with
  | zero => simp [Nat.div_eq_of_lt, hs]
  | succ n ih =>
    rw [List.range_succ, List.filter_append, ih]
    by_cases h : n % s = 0
    · obtain ⟨q, rfl⟩ := Nat.dvd_of_mod_eq_zero h
      have h1 : (s * q + s - 1) / s = q := by
        rw [show s * q + s - 1 = s * q + (s - 1) by omega, Nat.mul_add_div hs,
          Nat.div_eq_of_lt (by omega)]
        omega
      have h2 : (s * q + 1 + s - 1) / s = q + 1 := by
        rw [show s * q + 1 + s - 1 = s * (q + 1) by ring_nf; omega,
          Nat.mul_div_cancel_left _ hs]
      rw [h1, h2, List.range_succ, List.map_append]
      simp [h, Nat.mul_comm]
    · have hn0 : n ≠ 0 := by
        rintro rfl
        simp at h
      have e1 : n / s = (n - 1) / s := by
        conv_lhs => rw [show n = (n - 1) + 1 by omega]
        rw [Nat.succ_div]
        have hnd : ¬ s ∣ (n - 1) + 1 := by
          rw [show (n - 1) + 1 = n by omega]
          intro hd
          exact h (Nat.mod_eq_zero_of_dvd hd)
        simp [hnd]
      have h2 : (n + 1 + s - 1) / s = (n + s - 1) / s := by
        rw [show n + 1 + s - 1 = n + s by omega, show n + s - 1 = (n - 1) + s by omega,
          Nat.add_div_right _ hs, Nat.add_div_right _ hs, e1]
      rw [h2]
      simp [h]

theorem filterMap_getElem_getElem? (l : List α) (idxs : List Nat)
    (h : ∀ i ∈ idxs, i < l.length) (j : Nat) :
    (idxs.filterMap fun i => l[i]?)[j]? = idxs[j]?.bind fun i => l[i]? := by
  induction idxs generalizing j with
  | nil => simp
  | cons a t ih =>
    have ha : a < l.length := h a (List.mem_cons_self a t)
    have ht : ∀ i ∈ t, i < l.length := fun i hi => h i (List.mem_cons_of_mem a hi)
    rw [List.filterMap_cons]
    rw [List.getElem?_eq_getElem ha]
    match j with
    | 0 => simp [List.getElem?_eq_getElem ha]
    | j + 1 => simpa using ih ht j

theorem filterMap_getElem_length (l : List α) (idxs : List Nat)
    (h : ∀ i ∈ idxs, i < l.length) :
    (idxs.filterMap fun i => l[i]?).length = idxs.length := by
  induction idxs with
  | nil => simp
  | cons a t ih =>
    have ha : a < l.length := h a (List.mem_cons_self a t)
    rw [List.filterMap_cons, List.getElem?_eq_getElem ha]
    simpa using ih fun i hi => h i (List.mem_cons_of_mem a hi)

theorem filterMap_getElem_getLast? (l : List α) (idxs : List Nat)
    (h : ∀ i ∈ idxs, i < l.length) :
    (idxs.filterMap fun i => l[i]?).getLast? = idxs.getLast?.bind fun i => l[i]? := by
  rw [List.getLast?_eq_getElem?, List.getLast?_eq_getElem?,
    filterMap_getElem_getElem? l idxs h, filterMap_getElem_length l idxs h]

theorem mul_lt_of_lt_ceilDiv (n s j : Nat) (hs : 0 < s) (hj : j < (n + s - 1) / s) :
    j * s < n := by
  rcases Nat.eq_zero_or_pos n with rfl | hn
  · rw [Nat.div_eq_of_lt (by omega)] at hj
    omega
  · have h1 : (n + s - 1) / s = (n - 1) / s + 1 := by
      rw [show n + s - 1 = (n - 1) + s by omega, Nat.add_div_right _ hs]
    rw [h1] at hj
    have := (Nat.le_div_iff_mul_le hs).mp (by omega : j ≤ (n - 1) / s)
    omega

theorem decimateData_big (data : List α) (hn : 2000 < data.length) :
    decimateData data =
      (if (data.length - 1) % ((data.length + 1999) / 2000) = 0 then
        ((List.range ((data.length + (data.length + 1999) / 2000 - 1) /
            ((data.length + 1999) / 2000))).map
          fun j => j * ((data.length + 1999) / 2000)).filterMap fun i => data[i]?
      else
        (((List.range ((data.length + (data.length + 1999) / 2000 - 1) /
            ((data.length + 1999) / 2000))).map
          fun j => j * ((data.length + 1999) / 2000)).filterMap fun i => data[i]?)
          ++ data.getLast?.toList) := by
  rw [decimateData, if_neg (by omega)]
  have hs : 0 < (data.length + 1999) / 2000 := by omega
  simp only [range_filter_mod _ hs]

theorem kept_mem_lt (data : List α) (s : Nat) (hs : 0 < s) :
    ∀ i ∈ (List.range ((data.length + s - 1) / s)).map fun j => j * s, i < data.length := by
  intro i hi
  simp only [List.mem_map, List.mem_range] at hi
  obtain ⟨j, hj, rfl⟩ := hi
  exact mul_lt_of_lt_ceilDiv _ _ _ hs hj

theorem decimateData_length_big (data : List α) (hn : 2000 < data.length) :
    (decimateData data).length =
      (data.length + (data.length + 1999) / 2000 - 1) / ((data.length + 1999) / 2000) +
        if (data.length - 1) % ((data.length + 1999) / 2000) = 0 then 0 else 1 := by
  rw [decimateData_big data hn]
  have hs : 0 < (data.length + 1999) / 2000 := by omega
  have hmem := kept_mem_lt data _ hs
  by_cases hind : (data.length - 1) % ((data.length + 1999) / 2000) = 0
  · rw [if_pos hind, if_pos hind]
    rw [filterMap_getElem_length _ _ hmem]
    simp
  · rw [if_neg hind, if_neg hind]
    rw [List.length_append, filterMap_getElem_length _ _ hmem]
    have hne : data ≠ [] := by
      intro h
      rw [h] at hn
      simp at hn
    obtain ⟨x, hx⟩ := Option.isSome_iff_exists.mp (List.getLast?_isSome.mpr hne)
    rw [hx]
    simp

theorem decimateData_getLast (data : List α) (hne : data ≠ []) :
    (decimateData data).getLast? = data.getLast? := by
  by_cases hn : data.length ≤ 2000
  · rw [decimateData, if_pos hn]
  · push_neg at hn
    rw [decimateData_big data hn]
    have hs : 0 < (data.length + 1999) / 2000 := by omega
    have hmem := kept_mem_lt data _ hs
    by_cases hind : (data.length - 1) % ((data.length + 1999) / 2000) = 0
    · rw [if_pos hind]
      rw [filterMap_getElem_getLast? _ _ hmem, List.getLast?_map]
      have hcnt : (data.length + (data.length + 1999) / 2000 - 1) /
          ((data.length + 1999) / 2000)
          = (data.length - 1) / ((data.length + 1999) / 2000) + 1 := by
        rw [show data.length + (data.length + 1999) / 2000 - 1
            = (data.length - 1) + (data.length + 1999) / 2000 by omega,
          Nat.add_div_right _ hs]
      rw [hcnt, List.getLast?_eq_getElem?, List.length_range]
      simp only [Nat.add_sub_cancel]
      rw [List.getElem?_range (Nat.lt_succ_self _)]
      have hmul : (data.length - 1) / ((data.length + 1999) / 2000) *
          ((data.length + 1999) / 2000)
          = data.length - 1 := Nat.div_mul_cancel (Nat.dvd_of_mod_eq_zero hind)
      simp only [Option.map_some', Option.some_bind, hmul]
      rw [List.getLast?_eq_getElem?]
    · rw [if_neg hind]
      obtain ⟨x, hx⟩ := Option.isSome_iff_exists.mp (List.getLast?_isSome.mpr hne)
      rw [hx]
      simp [List.getLast?_concat]

theorem decimateData_getElem_big (data : List α) (hn : 2000 < data.length) (j : Nat)
    (hj : j * ((data.length + 1999) / 2000) < data.length) :
    (decimateData data)[j]? = data[j * ((data.length + 1999) / 2000)]? := by
  rw [decimateData_big data hn]
  have hs : 0 < (data.length + 1999) / 2000 := by omega
  have hmem := kept_mem_lt data _ hs
  have hcnt : j < (data.length + (data.length + 1999) / 2000 - 1) /
      ((data.length + 1999) / 2000) := by
    have h1 : (data.length + (data.length + 1999) / 2000 - 1) /
        ((data.length + 1999) / 2000)
        = (data.length - 1) / ((data.length + 1999) / 2000) + 1 := by
      rw [show data.length + (data.length + 1999) / 2000 - 1
          = (data.length - 1) + (data.length + 1999) / 2000 by omega,
        Nat.add_div_right _ hs]
    have h2 : j ≤ (data.length - 1) / ((data.length + 1999) / 2000) :=
      (Nat.le_div_iff_mul_le hs).mpr (Nat.le_pred_of_lt hj)
    omega
  have hlenk : (((List.range ((data.length + (data.length + 1999) / 2000 - 1) /
      ((data.length + 1999) / 2000))).map
      fun j => j * ((data.length + 1999) / 2000)).filterMap fun i => data[i]?).length
      = (data.length + (data.length + 1999) / 2000 - 1) / ((data.length + 1999) / 2000) := by
    rw [filterMap_getElem_length _ _ hmem]
    simp
  have hstep : ((List.range ((data.length + (data.length + 1999) / 2000 - 1) /
      ((data.length + 1999) / 2000))).map
      (fun j => j * ((data.length + 1999) / 2000)))[j]?
      = some (j * ((data.length + 1999) / 2000)) := by
    rw [List.getElem?_map, List.getElem?_range hcnt]
    rfl
  by_cases hind : (data.length - 1) % ((data.length + 1999) / 2000) = 0
  · rw [if_pos hind]
    rw [filterMap_getElem_getElem? _ _ hmem j, hstep]
    rfl
  · rw [if_neg hind]
    rw [List.getElem?_append]
    rw [if_pos (by rw [hlenk]; exact hcnt)]
    rw [filterMap_getElem_getElem? _ _ hmem j, hstep]
    rfl

theorem buildRuns_ne_nil (cur : Option String) (start lastTs : Int) (l : List DataPoint) :
    buildRuns cur start lastTs l ≠ [] := by
  induction l generalizing cur start with
  | nil => simp [buildRuns]
  | cons d rest ih =>
    rw [buildRuns]
    split
    · simp
    · exact ih cur start

theorem buildRuns_head_start (cur : Option String) (start lastTs : Int) (l : List DataPoint) :
    ((buildRuns cur start lastTs l).head?).map Run.start = some start := by
  induction l generalizing cur start with
  | nil => rfl
  | cons d rest ih =>
    rw [buildRuns]
    split
    · rfl
    · exact ih cur start

theorem buildRuns_last_stop (cur : Option String) (start lastTs : Int) (l : List DataPoint) :
    ((buildRuns cur start lastTs l).getLast?).map Run.stop = some lastTs := by
  induction l generalizing cur start with
  | nil => rfl
  | cons d rest ih =>
    rw [buildRuns]
    split
    · cases hrs : buildRuns d.val d.ts lastTs rest with
      | nil => exact absurd hrs (buildRuns_ne_nil d.val d.ts lastTs rest)
      | cons r' rs' =>
        rw [List.getLast?_cons_cons]
        have hih := ih d.val d.ts
        rw [hrs] at hih
        exact hih
    · exact ih cur start

theorem buildRuns_chain (cur : Option String) (start lastTs : Int) (l : List DataPoint) :
    List.Chain' (fun a b => a.stop = b.start) (buildRuns cur start lastTs l) := by
  induction l generalizing cur start with
  | nil => simp [buildRuns]
  | cons d rest ih =>
    rw [buildRuns]
    split
    · rw [List.chain'_cons']
      refine ⟨fun y hy => ?_, ih d.val d.ts⟩
      have hh := buildRuns_head_start d.val d.ts lastTs rest
      rw [hy] at hh
      simp at hh
      simp [hh]
    · exact ih cur start

theorem buildRuns_bounds (cur : Option String) (start lastTs : Int) (l : List DataPoint)
    (hstart : ∀ x ∈ l, start ≤ x.ts) (hsorted : l.Pairwise fun a b => a.ts ≤ b.ts)
    (hlast : ∀ x ∈ l, x.ts ≤ lastTs) (hsl : start ≤ lastTs) :
    ∀ r ∈ buildRuns cur start lastTs l, start ≤ r.start ∧ r.start ≤ r.stop ∧ r.stop ≤ lastTs := by
  induction l generalizing cur start with
  | nil =>
    intro r hr
    simp [buildRuns] at hr
    subst hr
    exact ⟨le_refl _, hsl, le_refl _⟩
  | cons d rest ih =>
    obtain ⟨hd, hrest⟩ := List.pairwise_cons.mp hsorted
    have hdts : start ≤ d.ts := hstart d (List.mem_cons_self d rest)
    have hdlast : d.ts ≤ lastTs := hlast d (List.mem_cons_self d rest)
    intro r hr
    rw [buildRuns] at hr
    split at hr
    · rcases List.mem_cons.mp hr with rfl | hr'
      · exact ⟨le_refl _, hdts, hdlast⟩
      · have hih := ih d.val d.ts hd hrest
          (fun x hx => hlast x (List.mem_cons_of_mem d hx)) hdlast r hr'
        exact ⟨le_trans hdts hih.1, hih.2⟩
    · exact ih cur start (fun x hx => hstart x (List.mem_cons_of_mem d hx)) hrest
        (fun x hx => hlast x (List.mem_cons_of_mem d hx)) hsl r hr

theorem buildRuns_sorted_start (cur : Option String) (start lastTs : Int) (l : List DataPoint)
    (hstart : ∀ x ∈ l, start ≤ x.ts) (hsorted : l.Pairwise fun a b => a.ts ≤ b.ts)
    (hlast : ∀ x ∈ l, x.ts ≤ lastTs) (hsl : start ≤ lastTs) :
    (buildRuns cur start lastTs l).Pairwise fun a b => a.start ≤ b.start := by
  induction l generalizing cur start with
  | nil => simp [buildRuns]
  | cons d rest ih =>
    obtain ⟨hd, hrest⟩ := List.pairwise_cons.mp hsorted
    have hdts : start ≤ d.ts := hstart d (List.mem_cons_self d rest)
    have hdlast : d.ts ≤ lastTs := hlast d (List.mem_cons_self d rest)
    have hrestlast : ∀ x ∈ rest, x.ts ≤ lastTs := fun x hx => hlast x (List.mem_cons_of_mem d hx)
    rw [buildRuns]
    split
    · rw [List.pairwise_cons]
      refine ⟨fun r hr => ?_, ih d.val d.ts hd hrest hrestlast hdlast⟩
      have hb := buildRuns_bounds d.val d.ts lastTs rest hd hrest hrestlast hdlast r hr
      exact le_trans hdts hb.1
    · exact ih cur start (fun x hx => hstart x (List.mem_cons_of_mem d hx)) hrest hrestlast hsl

theorem mem_ts_le_getLast (l : List DataPoint) (h : l.Pairwise fun a b => a.ts ≤ b.ts)
    (hne : l ≠ []) : ∀ x ∈ l, x.ts ≤ (l.getLast hne).ts := by
  induction l with
  | nil => simp
  | cons a t ih =>
    obtain ⟨ha, ht⟩ := List.pairwise_cons.mp h
    intro x hx
    cases t with
    | nil =>
      simp at hx
      subst hx
      simp [List.getLast]
    | cons b t' =>
      rw [List.getLast_cons (List.cons_ne_nil b t')]
      rcases List.mem_cons.mp hx with rfl | hx'
      · exact ha _ (List.getLast_mem (List.cons_ne_nil b t'))
      · exact ih ht (List.cons_ne_nil b t') x hx'

theorem bisectLoop_spec (data : List DataPoint) (q : Int)
    (hmono : ∀ i j, i ≤ j → j < data.length →
      (data.getD i ⟨0, none⟩).ts ≤ (data.getD j ⟨0, none⟩).ts) :
    ∀ fuel lo hi, hi ≤ data.length → hi - lo ≤ fuel → lo ≤ hi →
    (∀ j < lo, (data.getD j ⟨0, none⟩).ts < q) →
    (∀ j, hi ≤ j → j < data.length → q ≤ (data.getD j ⟨0, none⟩).ts) →
    lo ≤ bisectLoop data q fuel lo hi ∧ bisectLoop data q fuel lo hi ≤ hi ∧
    (∀ j < bisectLoop data q fuel lo hi, (data.getD j ⟨0, none⟩).ts < q) ∧
    (∀ j, bisectLoop data q fuel lo hi ≤ j → j < data.length →
      q ≤ (data.getD j ⟨0, none⟩).ts) := by
  intro fuel
  induction fuel with
  | zero =>
    intro lo hi hhi hfuel hlohi hlow hhigh
    have heq : lo = hi := by omega
    subst heq
    exact ⟨le_refl _, le_refl _, hlow, hhigh⟩
  | succ fuel ih =>
    intro lo hi hhi hfuel hlohi hlow hhigh
    rw [bisectLoop]
    by_cases hlh : lo < hi
    · rw [if_pos hlh]
      by_cases hc : (data.getD ((lo + hi) / 2) ⟨0, none⟩).ts < q
      · rw [if_pos hc]
        obtain ⟨h1, h2, h3, h4⟩ := ih ((lo + hi) / 2 + 1) hi hhi (by omega) (by omega)
          (fun j hj => lt_of_le_of_lt (hmono j ((lo + hi) / 2) (by omega) (by omega)) hc)
          hhigh
        exact ⟨by omega, h2, h3, h4⟩
      · rw [if_neg hc]
        obtain ⟨h1, h2, h3, h4⟩ := ih lo ((lo + hi) / 2) (by omega) (by omega) (by omega)
          hlow
          (fun j hj hjlen => le_trans (not_lt.mp hc) (hmono ((lo + hi) / 2) j hj hjlen))
        exact ⟨h1, by omega, h3, h4⟩
    · rw [if_neg hlh]
      have heq : lo = hi := by omega
      subst heq
      exact ⟨le_refl _, le_refl _, hlow, hhigh⟩

theorem getD_ts_mono (data : List DataPoint) (hsorted : data.Pairwise fun a b => a.ts ≤ b.ts) :
    ∀ i j, i ≤ j → j < data.length →
      (data.getD i ⟨0, none⟩).ts ≤ (data.getD j ⟨0, none⟩).ts := by
  intro i j hij hj
  rcases eq_or_lt_of_le hij with rfl | hlt
  · exact le_refl _
  · have hi : i < data.length := lt_trans hlt hj
    rw [List.getD_eq_getElem data _ hi, List.getD_eq_getElem data _ hj]
    exact (List.pairwise_iff_getElem.mp hsorted) i j hi hj hlt

theorem bisectLeft_spec (data : List DataPoint) (q : Int)
    (hsorted : data.Pairwise fun a b => a.ts ≤ b.ts) :
    bisectLeft data q ≤ data.length ∧
    (∀ j < bisectLeft data q, (data.getD j ⟨0, none⟩).ts < q) ∧
    (∀ j, bisectLeft data q ≤ j → j < data.length → q ≤ (data.getD j ⟨0, none⟩).ts) := by
  obtain ⟨h1, h2, h3, h4⟩ := bisectLoop_spec data q (getD_ts_mono data hsorted)
    data.length 0 data.length (le_refl _) (by omega) (by omega)
    (by omega) (fun j hj hjlen => absurd hjlen (by omega))
  exact ⟨h2, h3, h4⟩

theorem analyzeStep_headers (parse : String → Bool) (dataLines : List String)
    (m : CsvMetadata) (ih : Nat × String) :
    (analyzeStep parse dataLines m ih).headers = m.headers := by
  simp only [analyzeStep]
  split_ifs <;> rfl

theorem foldl_analyze_headers (parse : String → Bool) (dataLines : List String) :
    ∀ (hs : List (Nat × String)) (m : CsvMetadata),
    (hs.foldl (analyzeStep parse dataLines) m).headers = m.headers := by
  intro hs
  induction hs with
  | nil => intro m; rfl
  | cons ih0 rest ihind =>
    intro m
    rw [List.foldl_cons, ihind, analyzeStep_headers]

theorem analyzeHeaders_headers (parse : String → Bool) (headers dataLines : List String) :
    (analyzeHeaders parse headers dataLines).headers = headers :=
  foldl_analyze_headers parse dataLines headers.enum _

theorem foldl_analyze_sublist (parse : String → Bool) (dataLines : List String) :
    ∀ (hs : List (Nat × String)) (m : CsvMetadata),
    List.Sublist ((hs.foldl (analyzeStep parse dataLines) m).numericFields)
      (m.numericFields ++ hs.map Prod.snd) ∧
    List.Sublist ((hs.foldl (analyzeStep parse dataLines) m).categoricalFields)
      (m.categoricalFields ++ hs.map Prod.snd) := by
  intro hs
  induction hs with
  | nil => intro m; simp
  | cons ih0 rest ihind =>
    intro m
    rw [List.foldl_cons, List.map_cons]
    have hcons : ∀ l : List String,
        List.Sublist (l ++ rest.map Prod.snd) (l ++ (ih0.2 :: rest.map Prod.snd)) :=
      fun l => List.Sublist.append_left (List.sublist_cons_self ih0.2 _) l
    simp only [analyzeStep]
    split_ifs with b1 b2 b3 b4
    · exact ⟨(ihind _).1.trans (hcons _), (ihind _).2.trans (hcons _)⟩
    · exact ⟨(ihind _).1.trans (hcons _), (ihind _).2.trans (hcons _)⟩
    · exact ⟨(ihind _).1.trans (hcons _), (ihind _).2.trans (hcons _)⟩
    · refine ⟨(ihind _).1.trans ?_, (ihind _).2.trans (hcons _)⟩
      rw [List.append_assoc]
      exact List.Sublist.refl _
    · refine ⟨(ihind _).1.trans (hcons _), (ihind _).2.trans ?_⟩
      rw [List.append_assoc]
      exact List.Sublist.refl _

theorem foldl_analyze_distinct (parse : String → Bool) (dataLines : List String) :
    ∀ (hs : List (Nat × String)) (m : CsvMetadata),
    (hs.map Prod.snd).Nodup →
    (∀ f ∈ m.numericFields, m.latitudeField ≠ some f ∧ m.longitudeField ≠ some f) →
    (∀ f ∈ m.numericFields, ∀ ih ∈ hs, ih.2 ≠ f) →
    (∀ ih ∈ hs, m.latitudeField ≠ some ih.2 ∧ m.longitudeField ≠ some ih.2) →
    ∀ f ∈ (hs.foldl (analyzeStep parse dataLines) m).numericFields,
      (hs.foldl (analyzeStep parse dataLines) m).latitudeField ≠ some f ∧
      (hs.foldl (analyzeStep parse dataLines) m).longitudeField ≠ some f := by
  intro hs
  induction hs with
  | nil =>
    intro m _ h1 _ _
    exact h1
  | cons ih0 rest ihind =>
    intro m hnd h1 h2 h3
    rw [List.map_cons, List.nodup_cons] at hnd
    rw [List.foldl_cons]
    have hrest2 : ∀ f ∈ m.numericFields, ∀ ih ∈ rest, ih.2 ≠ f :=
      fun f hf ih hih => h2 f hf ih (List.mem_cons_of_mem ih0 hih)
    have hrest3 : ∀ ih ∈ rest, m.latitudeField ≠ some ih.2 ∧ m.longitudeField ≠ some ih.2 :=
      fun ih hih => h3 ih (List.mem_cons_of_mem ih0 hih)
    have hne_rest : ∀ ih ∈ rest, ih0.2 ≠ ih.2 := by
      intro ih hih he
      exact hnd.1 (he ▸ List.mem_map_of_mem Prod.snd hih)
    simp only [analyzeStep]
    split_ifs with b1 b2 b3 b4
    · exact ihind _ hnd.2 h1 hrest2 hrest3
    · refine ihind _ hnd.2 ?_ hrest2 ?_
      · intro f hf
        refine ⟨?_, (h1 f hf).2⟩
        intro he
        injection he with he2
        exact h2 f hf ih0 (List.mem_cons_self ih0 rest) he2
      · intro ih hih
        refine ⟨?_, (hrest3 ih hih).2⟩
        intro he
        injection he with he2
        exact hne_rest ih hih he2
    · refine ihind _ hnd.2 ?_ hrest2 ?_
      · intro f hf
        refine ⟨(h1 f hf).1, ?_⟩
        intro he
        injection he with he2
        exact h2 f hf ih0 (List.mem_cons_self ih0 rest) he2
      · intro ih hih
        refine ⟨(hrest3 ih hih).1, ?_⟩
        intro he
        injection he with he2
        exact hne_rest ih hih he2
    · refine ihind _ hnd.2 ?_ ?_ hrest3
      · intro f hf
        rcases List.mem_append.mp hf with hf' | hf'
        · exact h1 f hf'
        · rw [List.mem_singleton] at hf'
          subst hf'
          exact h3 ih0 (List.mem_cons_self ih0 rest)
      · intro f hf ih hih
        rcases List.mem_append.mp hf with hf' | hf'
        · exact hrest2 f hf' ih hih
        · rw [List.mem_singleton] at hf'
          subst hf'
          exact fun he => hne_rest ih hih he.symm
    · exact ihind _ hnd.2 h1 hrest2 hrest3

theorem analyzeHeaders_numeric_distinct (parse : String → Bool)
    (headers dataLines : List String) (hnd : headers.Nodup) :
    ∀ f ∈ (analyzeHeaders parse headers dataLines).numericFields,
      (analyzeHeaders parse headers dataLines).latitudeField ≠ some f ∧
      (analyzeHeaders parse headers dataLines).longitudeField ≠ some f := by
  refine foldl_analyze_distinct parse dataLines headers.enum _ ?_ ?_ ?_ ?_
  · rw [List.enum_map_snd]
    exact hnd
  · simp
  · simp
  · simp

theorem analyzeHeaders_sublists (parse : String → Bool) (headers dataLines : List String) :
    List.Sublist (analyzeHeaders parse headers dataLines).numericFields headers ∧
    List.Sublist (analyzeHeaders parse headers dataLines).categoricalFields headers := by
  have h := foldl_analyze_sublist parse dataLines headers.enum
    ⟨headers, [], [], none, none, none⟩
  simp only [List.nil_append, List.enum_map_snd] at h
  exact h

theorem makePlotFields_spec (md : CsvMetadata)
    (hdist : ∀ f ∈ md.numericFields, md.latitudeField ≠ some f ∧ md.longitudeField ≠ some f) :
    (makePlotFields md).map PlotField.key = md.numericFields ++ md.categoricalFields ∧
    ∀ i pf, (makePlotFields md)[i]? = some pf →
      (pf.selected = true ↔
        ((i < md.numericFields.length ∧ i < 2) ∨ i = md.numericFields.length)) ∧
      pf.color = DEFAULT_COLORS.getD (i % DEFAULT_COLORS.length) "" ∧
      pf.dataType = if i < md.numericFields.length then "number" else "string" := by
  have hfilter : (md.numericFields.filter fun f =>
      (some f != md.latitudeField) && (some f != md.longitudeField)) = md.numericFields := by
    rw [List.filter_eq_self]
    intro f hf
    obtain ⟨h1, h2⟩ := hdist f hf
    simp only [Bool.and_eq_true, bne_iff_ne, ne_eq]
    exact ⟨fun he => h1 he.symm, fun he => h2 he.symm⟩
  simp only [makePlotFields, hfilter]
  set numMap := md.numericFields.enum.map fun jf =>
    (⟨jf.2, decide (jf.1 < 2),
      DEFAULT_COLORS.getD (jf.1 % DEFAULT_COLORS.length) "", "number"⟩ : PlotField) with hnumMap
  set catMap := md.categoricalFields.enum.map fun jf =>
    (⟨jf.2, decide (jf.1 < 1),
      DEFAULT_COLORS.getD ((numMap.length + jf.1) % DEFAULT_COLORS.length) "",
      "string"⟩ : PlotField) with hcatMap
  have hnumLen : numMap.length = md.numericFields.length := by
    rw [hnumMap, List.length_map, List.enum_length]
  have hcatLen : catMap.length = md.categoricalFields.length := by
    rw [hcatMap, List.length_map, List.enum_length]
  constructor
  · rw [List.map_append]
    congr 1
    · rw [hnumMap, List.map_map]
      exact List.enum_map_snd md.numericFields
    · rw [hcatMap, List.map_map]
      exact List.enum_map_snd md.categoricalFields
  · intro i pf h
    rw [List.getElem?_append] at h
    by_cases hi : i < md.numericFields.length
    · rw [if_pos (by omega)] at h
      rw [hnumMap, List.getElem?_map, List.getElem?_enum,
        List.getElem?_eq_getElem hi] at h
      simp only [Option.map_some', Option.some.injEq] at h
      subst h
      refine ⟨?_, rfl, ?_⟩
      · simp only [decide_eq_true_eq]
        constructor
        · intro h2
          exact Or.inl ⟨hi, h2⟩
        · rintro (⟨-, h2⟩ | h2)
          · exact h2
          · omega
      · rw [if_pos hi]
    · rw [if_neg (by omega)] at h
      by_cases hic : i - numMap.length < md.categoricalFields.length
      · rw [hcatMap, List.getElem?_map, List.getElem?_enum,
          List.getElem?_eq_getElem hic] at h
        simp only [Option.map_some', Option.some.injEq] at h
        subst h
        have hexp : numMap.length + (i - numMap.length) = i := by omega
        refine ⟨?_, ?_, ?_⟩
        · simp only [decide_eq_true_eq]
          constructor
          · intro h2
            right
            omega
          · rintro (⟨h2, -⟩ | h2) <;> omega
        · rw [hexp]
        · rw [if_neg hi]
      · rw [hcatMap, List.getElem?_map, List.getElem?_enum,
          List.getElem?_eq_none (by omega)] at h
        simp at h

/-! Claim theorems. -/

/-- C1: for every column not claimed by the datetime/latitude/longitude header
rules, `isNumericField` classifies the column numeric iff, among its
non-missing values, at least one value parses as a finite number and zero
values fail to parse as a finite number; in particular the column
`[1, 2, "north", 4]` is not numeric, hence classified categorical. -/
theorem isNumericField_iff_all_finite :
    (∀ (parse : String → Bool) (cells : List (Option String)),
      isNumericField parse cells = true ↔
        ((∃ v ∈ nonMissingValues cells, parse v = true) ∧
          ∀ v ∈ nonMissingValues cells, parse v = true)) ∧
    isNumericField jsParseFloatFinite
      [some "1", some "2", some "north", some "4"] = false := by
  constructor
  · intro parse cells
    obtain ⟨h1, h2, h3⟩ := numScan_foldl_spec parse cells ⟨false, false, 0⟩
    simp only [isNumericField, Bool.and_eq_true, h1, h2, Bool.false_or,
      decide_eq_true_eq, Bool.not_eq_true', List.any_eq_true, List.any_eq_false,
      Bool.not_eq_true]
    constructor
    · rintro ⟨⟨hex, hall⟩, -⟩
      exact ⟨hex, fun v hv => by simpa using hall v hv⟩
    · rintro ⟨hex, hall⟩
      refine ⟨⟨hex, fun v hv => by simpa using hall v hv⟩, ?_⟩
      obtain ⟨v, hv, -⟩ := hex
      have hne : nonMissingValues cells ≠ [] := by
        intro h
        rw [h] at hv
        simp at hv
      have hlen : 0 < (nonMissingValues cells).length := List.length_pos.mpr hne
      omega
  · decide

/-- C2: for a non-empty record sequence sorted by ascending timestamp, the
run list of `createStateSegments` (whose partition by missing status is the
source's Segments and Gaps, in start order) is non-empty, starts at the first
record's timestamp, ends at the last record's timestamp (zero-width final run
for a single record), is contiguous (each run's end is the next one's start),
has only well-formed runs (`start ≤ stop`, so no overlap), and is sorted by
start — together it tiles exactly the interval from first to last
timestamp. -/
theorem createStateSegments_tiles (data : List DataPoint) (hne : data ≠ [])
    (hsorted : data.Pairwise fun a b => a.ts ≤ b.ts) :
    createStateSegments data ≠ [] ∧
    ((createStateSegments data).head?).map Run.start = (data.head?).map DataPoint.ts ∧
    ((createStateSegments data).getLast?).map Run.stop = (data.getLast?).map DataPoint.ts ∧
    List.Chain' (fun a b => a.stop = b.start) (createStateSegments data) ∧
    (∀ r ∈ createStateSegments data, r.start ≤ r.stop) ∧
    (createStateSegments data).Pairwise fun a b => a.start ≤ b.start := by
  match data, hne with
  | d :: rest, _ =>
    obtain ⟨hd, hrest⟩ := List.pairwise_cons.mp hsorted
    have hlastmem := mem_ts_le_getLast (d :: rest) hsorted (List.cons_ne_nil d rest)
    have hrestlast : ∀ x ∈ rest, x.ts ≤ ((d :: rest).getLast (List.cons_ne_nil d rest)).ts :=
      fun x hx => hlastmem x (List.mem_cons_of_mem d hx)
    have hdlast : d.ts ≤ ((d :: rest).getLast (List.cons_ne_nil d rest)).ts :=
      hlastmem d (List.mem_cons_self d rest)
    have hglast : (d :: rest).getLast? = some ((d :: rest).getLast (List.cons_ne_nil d rest)) :=
      List.getLast?_eq_getLast (d :: rest) (List.cons_ne_nil d rest)
    refine ⟨buildRuns_ne_nil _ _ _ _,
      buildRuns_head_start _ _ _ _,
      ?_, buildRuns_chain _ _ _ _,
      fun r hr => (buildRuns_bounds d.val d.ts _ rest hd hrest hrestlast hdlast r hr).2.1,
      buildRuns_sorted_start d.val d.ts _ rest hd hrest hrestlast hdlast⟩
    rw [createStateSegments, buildRuns_last_stop, hglast]
    rfl

/-- Witness for C2 at the concrete sorted sequence
`[(0, A), (1, missing), (2, B)]`. -/
theorem createStateSegments_tiles_witness :
    createStateSegments [⟨0, some "A"⟩, ⟨1, none⟩, ⟨2, some "B"⟩] ≠ [] ∧
    ((createStateSegments [⟨0, some "A"⟩, ⟨1, none⟩, ⟨2, some "B"⟩]).head?).map Run.start
      = (([⟨0, some "A"⟩, ⟨1, none⟩, ⟨2, some "B"⟩] : List DataPoint).head?).map DataPoint.ts ∧
    ((createStateSegments [⟨0, some "A"⟩, ⟨1, none⟩, ⟨2, some "B"⟩]).getLast?).map Run.stop
      = (([⟨0, some "A"⟩, ⟨1, none⟩, ⟨2, some "B"⟩] : List DataPoint).getLast?).map DataPoint.ts ∧
    List.Chain' (fun a b => a.stop = b.start)
      (createStateSegments [⟨0, some "A"⟩, ⟨1, none⟩, ⟨2, some "B"⟩]) ∧
    (∀ r ∈ createStateSegments [⟨0, some "A"⟩, ⟨1, none⟩, ⟨2, some "B"⟩], r.start ≤ r.stop) ∧
    (createStateSegments [⟨0, some "A"⟩, ⟨1, none⟩, ⟨2, some "B"⟩]).Pairwise
      fun a b => a.start ≤ b.start :=
  createStateSegments_tiles [⟨0, some "A"⟩, ⟨1, none⟩, ⟨2, some "B"⟩] (by decide) (by decide)

/-- C3: for non-empty input, `decimateData` returns the input unchanged when
its length is at most 2000; otherwise, with `step = (length + 1999) / 2000`
(which is exactly `ceil(length / 2000)`: the least `k` with
`length ≤ 2000 * k`), output position `j` holds input record `j * step` for
every `j` with `j * step < length`, and the output length is the number of
kept stride indices plus one appended record exactly when the last index was
not kept; the output's last element always equals the input's last element,
and a 5000-record input yields at most 2001 records. -/
theorem decimateData_spec (data : List α) (hne : data ≠ []) :
    (data.length ≤ 2000 → decimateData data = data) ∧
    (2000 < data.length →
      (data.length ≤ 2000 * ((data.length + 1999) / 2000) ∧
        ∀ k, data.length ≤ 2000 * k → (data.length + 1999) / 2000 ≤ k) ∧
      (∀ j, j * ((data.length + 1999) / 2000) < data.length →
        (decimateData data)[j]? = data[j * ((data.length + 1999) / 2000)]?) ∧
      (decimateData data).length =
        (data.length + (data.length + 1999) / 2000 - 1) / ((data.length + 1999) / 2000) +
          if (data.length - 1) % ((data.length + 1999) / 2000) = 0 then 0 else 1) ∧
    (decimateData data).getLast? = data.getLast? ∧
    (data.length = 5000 → (decimateData data).length ≤ 2001) := by
  refine ⟨fun h => by rw [decimateData, if_pos h], fun hn => ?_,
    decimateData_getLast data hne, fun h5 => ?_⟩
  · exact ⟨⟨by omega, fun k hk => by omega⟩,
      fun j hj => decimateData_getElem_big data hn j hj,
      decimateData_length_big data hn⟩
  · rw [decimateData_length_big data (by omega), h5]
    norm_num

/-- Witness for C3: a 10-record input passes through unchanged. -/
theorem decimateData_spec_witness : decimateData (List.range 10) = List.range 10 :=
  (decimateData_spec (List.range 10) (by decide)).1 (by decide)

/-- C4 (counterexample to the claim as stated): with records at timestamps 0
and 2 and query 1, the two distances are equal, yet `nearestPoint` returns
the predecessor (timestamp 0), not the successor (timestamp 2) the claim
promises for ties. -/
theorem nearestPoint_tie_counterexample :
    nearestPoint [⟨0, none⟩, ⟨2, none⟩] 1 = some ⟨0, none⟩ ∧
    (1 : Int) - 0 = 2 - 1 ∧
    nearestPoint [⟨0, none⟩, ⟨2, none⟩] 1 ≠ some ⟨2, none⟩ := by
  refine ⟨by decide, by decide, by decide⟩

/-- C4 (amended): for a non-empty sequence sorted by ascending timestamp,
`bisectLeft` computes the lower-bound insertion index of the query (all
records before it are strictly earlier than the query, all from it on are at
or after the query); `nearestPoint` returns the first record when the index
is 0, the last when it equals the length, and otherwise whichever of
predecessor and successor is strictly closer, with ties resolved in favor of
the predecessor (left neighbor). -/
theorem nearestPoint_spec (data : List DataPoint) (q : Int) (hne : data ≠ [])
    (hsorted : data.Pairwise fun a b => a.ts ≤ b.ts) :
    (bisectLeft data q ≤ data.length ∧
      (∀ j < bisectLeft data q, (data.getD j ⟨0, none⟩).ts < q) ∧
      (∀ j < data.length, bisectLeft data q ≤ j → q ≤ (data.getD j ⟨0, none⟩).ts)) ∧
    (bisectLeft data q = 0 → nearestPoint data q = data.head?) ∧
    (bisectLeft data q = data.length → nearestPoint data q = data.getLast?) ∧
    (0 < bisectLeft data q → bisectLeft data q < data.length →
      (data.getD (bisectLeft data q - 1) ⟨0, none⟩).ts < q ∧
      q ≤ (data.getD (bisectLeft data q) ⟨0, none⟩).ts ∧
      nearestPoint data q =
        some (if (data.getD (bisectLeft data q) ⟨0, none⟩).ts - q
              < q - (data.getD (bisectLeft data q - 1) ⟨0, none⟩).ts
            then data.getD (bisectLeft data q) ⟨0, none⟩
            else data.getD (bisectLeft data q - 1) ⟨0, none⟩)) := by
  obtain ⟨hle, hlow, hhigh⟩ := bisectLeft_spec data q hsorted
  refine ⟨⟨hle, hlow, fun j hj hij => hhigh j hij hj⟩, fun h0 => ?_, fun hn => ?_,
    fun hp hlt => ?_⟩
  · rw [nearestPoint]
    simp only [h0]
    rw [List.head?_eq_getElem?]
    simp
  · have hlen : 0 < data.length := List.length_pos.mpr hne
    rw [nearestPoint]
    simp only [hn]
    rw [if_neg (by omega)]
    simp [List.getLast?_eq_getElem?]
  · have hi1 : bisectLeft data q - 1 < data.length := by omega
    have hi2 : bisectLeft data q < data.length := hlt
    refine ⟨hlow _ (by omega), hhigh _ (le_refl _) hlt, ?_⟩
    simp only [nearestPoint]
    rw [if_neg (by omega : ¬ bisectLeft data q = 0),
      if_neg (by omega : ¬ bisectLeft data q = data.length)]
    rw [List.getElem?_eq_getElem hi1, List.getElem?_eq_getElem hi2]
    rw [List.getD_eq_getElem data _ hi1, List.getD_eq_getElem data _ hi2]

/-- Witness for the amended C4 at timestamps `[0, 10]` and query 3. -/
theorem nearestPoint_spec_witness :
    nearestPoint [⟨0, none⟩, ⟨10, none⟩] 3 =
      some (if ((([⟨0, none⟩, ⟨10, none⟩] : List DataPoint).getD
              (bisectLeft [⟨0, none⟩, ⟨10, none⟩] 3) ⟨0, none⟩).ts - 3
            < 3 - (([⟨0, none⟩, ⟨10, none⟩] : List DataPoint).getD
              (bisectLeft [⟨0, none⟩, ⟨10, none⟩] 3 - 1) ⟨0, none⟩).ts)
          then ([⟨0, none⟩, ⟨10, none⟩] : List DataPoint).getD
            (bisectLeft [⟨0, none⟩, ⟨10, none⟩] 3) ⟨0, none⟩
          else ([⟨0, none⟩, ⟨10, none⟩] : List DataPoint).getD
            (bisectLeft [⟨0, none⟩, ⟨10, none⟩] 3 - 1) ⟨0, none⟩) :=
  ((nearestPoint_spec [⟨0, none⟩, ⟨10, none⟩] 3 (by decide) (by decide)).2.2.2
    (by decide) (by decide)).2.2

/-- C5: for every requested zoom range, including ranges partly or wholly
outside the data bounds, the range stored after `emitZoom` on a coordinator
whose `dataBounds` are set starts no earlier than the bounds' start, ends no
later than the bounds' end, and as an interval is contained in the bounds
interval. -/
theorem emitZoom_stored_within_dataBounds (s : SyncState) (b r w : TimeRange)
    (hb : s.dataBounds = some b)
    (hw : getCurrentZoom (emitZoom s r) = some w) :
    b.start ≤ w.start ∧ w.stop ≤ b.stop ∧
      Set.Icc w.start w.stop ⊆ Set.Icc b.start b.stop := by
  simp only [emitZoom, getCurrentZoom, hb, Option.some.injEq] at hw
  subst hw
  refine ⟨le_max_right _ _, min_le_right _ _, fun t ht => ?_⟩
  simp only [Set.mem_Icc] at ht ⊢
  omega

/-- Witness for C5: bounds `[0, 10]`, request `[-5, 20]`; the stored range is
`[0, 10]`, within bounds. -/
theorem emitZoom_stored_within_dataBounds_witness :
    (0 : Int) ≤ 0 ∧ (10 : Int) ≤ 10 ∧
      Set.Icc (0 : Int) 10 ⊆ Set.Icc (0 : Int) 10 :=
  emitZoom_stored_within_dataBounds ⟨some ⟨0, 10⟩, none⟩ ⟨0, 10⟩ ⟨-5, 20⟩ ⟨0, 10⟩
    rfl (by decide)

/-- C6 (evidence of the code bug): parsing the empty input does not fail
fast — `parseCsv ""` returns successfully, with the single empty header
classified categorical and one bogus plottable field, instead of reporting a
descriptive error to the caller. -/
theorem parseCsv_empty_input_no_error :
    parseCsv jsParseFloatFinite "" =
      (⟨[""], [], [""], none, none, none⟩,
       [⟨"", true, "#1f77b4", "string"⟩]) := by decide

/-- C7 (counterexample to the claim as stated): decimating 4000 records
yields 2001 records (2000 stride-kept plus the appended last), which exceeds
the 2000 target, so a second decimation reduces further and
`decimateData (decimateData R) ≠ decimateData R`. -/
theorem decimateData_not_idempotent_at_4000 :
    decimateData (decimateData (List.range 4000)) ≠ decimateData (List.range 4000) := by
  intro h
  have h1 : (decimateData (List.range 4000)).length = 2001 := by
    have hlen := decimateData_length_big (List.range 4000) (by simp)
    rw [List.length_range] at hlen
    norm_num at hlen
    exact hlen
  have h2 : (decimateData (decimateData (List.range 4000))).length = 1001 := by
    have hlen := decimateData_length_big (decimateData (List.range 4000)) (by omega)
    rw [h1] at hlen
    norm_num at hlen
    exact hlen
  rw [h] at h2
  omega

/-- C7 (amended): `decimateData` is idempotent on any input whose first
decimation already has at most 2000 records — in particular whenever the
input itself has at most 2000 records. -/
theorem decimateData_idempotent_of_small (data : List α)
    (h : (decimateData data).length ≤ 2000) :
    decimateData (decimateData data) = decimateData data := by
  conv_lhs => rw [decimateData]
  rw [if_pos h]

/-- Witness for the amended C7 on a singleton record list. -/
theorem decimateData_idempotent_witness :
    decimateData (decimateData [(0 : Nat)]) = decimateData [(0 : Nat)] :=
  decimateData_idempotent_of_small [0] (by decide)

/-- C8: for a sequence sorted by strictly ascending timestamps, a query equal
to some record's timestamp makes `nearestPoint` return that exact record. -/
theorem nearestPoint_exact_match (data : List DataPoint) (k : Nat) (p : DataPoint)
    (hsorted : data.Pairwise fun a b => a.ts < b.ts)
    (hk : data[k]? = some p) :
    nearestPoint data p.ts = some p := by
  have hklen : k < data.length := by
    rcases List.getElem?_eq_some.mp hk with ⟨h, -⟩
    exact h
  have hgetD : ∀ i, i < data.length → data[i]? = some (data.getD i ⟨0, none⟩) := by
    intro i hi
    rw [List.getElem?_eq_getElem hi, List.getD_eq_getElem data _ hi]
  have hkp : data.getD k ⟨0, none⟩ = p := by
    have hsome := (hgetD k hklen).symm.trans hk
    exact Option.some.inj hsome
  have hkts : (data.getD k ⟨0, none⟩).ts = p.ts := congrArg DataPoint.ts hkp
  have hsorted' : data.Pairwise fun a b => a.ts ≤ b.ts :=
    hsorted.imp fun h => le_of_lt h
  obtain ⟨hle, hlow, hhigh⟩ := bisectLeft_spec data p.ts hsorted'
  have hstrict := List.pairwise_iff_getElem.mp hsorted
  have hstrictD : ∀ i j, i < j → j < data.length →
      (data.getD i ⟨0, none⟩).ts < (data.getD j ⟨0, none⟩).ts := by
    intro i j hlt hj
    rw [List.getD_eq_getElem data _ (lt_trans hlt hj), List.getD_eq_getElem data _ hj]
    exact hstrict i j (lt_trans hlt hj) hj hlt
  have hbk : bisectLeft data p.ts = k := by
    by_contra hne
    rcases Nat.lt_or_ge (bisectLeft data p.ts) k with hlt | hge
    · have hq := hhigh (bisectLeft data p.ts) (le_refl _) (by omega)
      have hlt2 := hstrictD (bisectLeft data p.ts) k hlt hklen
      rw [hkts] at hlt2
      omega
    · have hlt2 : k < bisectLeft data p.ts := by omega
      have hc := hlow k hlt2
      rw [hkts] at hc
      omega
  by_cases hk0 : k = 0
  · subst hk0
    rw [nearestPoint]
    simp [hbk, hk]
  · have hprev : (data.getD (k - 1) ⟨0, none⟩).ts < p.ts := by
      have hlt2 := hstrictD (k - 1) k (by omega) hklen
      rwa [hkts] at hlt2
    simp only [nearestPoint]
    rw [hbk, if_neg hk0, if_neg (by omega : ¬ k = data.length)]
    rw [hgetD (k - 1) (by omega), hgetD k hklen]
    show some (if p.ts - (data.getD (k - 1) ⟨0, none⟩).ts
        > (data.getD k ⟨0, none⟩).ts - p.ts
        then data.getD k ⟨0, none⟩ else data.getD (k - 1) ⟨0, none⟩) = some p
    rw [if_pos (by rw [hkts]; omega)]
    rw [hkp]

/-- Witness for C8: querying the exact timestamp 5 returns that record. -/
theorem nearestPoint_exact_match_witness :
    nearestPoint [⟨0, none⟩, ⟨5, some "a"⟩] (DataPoint.ts ⟨5, some "a"⟩)
      = some ⟨5, some "a"⟩ :=
  nearestPoint_exact_match [⟨0, none⟩, ⟨5, some "a"⟩] 1 ⟨5, some "a"⟩ (by decide) (by decide)

/-- C9 (counterexample to the claim as stated): for the input
`status,temp` / `a,1`, the headers are `[status, temp]` but the plot-field
sequence is `[temp, status]` — numeric fields first — so it is not in
original header order (not even a sublist of the header sequence). -/
theorem parseCsv_fields_order_counterexample :
    (parseCsv jsParseFloatFinite "status,temp\na,1").1.headers = ["status", "temp"] ∧
    (parseCsv jsParseFloatFinite "status,temp\na,1").2.map PlotField.key
      = ["temp", "status"] ∧
    ¬ List.Sublist ((parseCsv jsParseFloatFinite "status,temp\na,1").2.map PlotField.key)
      (parseCsv jsParseFloatFinite "status,temp\na,1").1.headers := by decide

/-- C9 (amended): for every parsed input with pairwise-distinct header names,
the plot-field sequence is exactly the numeric-role columns in header order
followed by the categorical-role columns in header order (datetime, latitude
and longitude excluded); a field is selected iff it is among the first 2
numeric fields or the first 1 categorical field, and colors are assigned
cyclically from `DEFAULT_COLORS` over the concatenated position. -/
theorem parseCsv_plotFields_spec (parse : String → Bool) (csvText : String)
    (hnodup : (parseCsv parse csvText).1.headers.Nodup) :
    ((parseCsv parse csvText).2.map PlotField.key =
      (parseCsv parse csvText).1.numericFields ++
        (parseCsv parse csvText).1.categoricalFields) ∧
    List.Sublist (parseCsv parse csvText).1.numericFields
      (parseCsv parse csvText).1.headers ∧
    List.Sublist (parseCsv parse csvText).1.categoricalFields
      (parseCsv parse csvText).1.headers ∧
    (∀ i pf, (parseCsv parse csvText).2[i]? = some pf →
      (pf.selected = true ↔
        ((i < (parseCsv parse csvText).1.numericFields.length ∧ i < 2) ∨
          i = (parseCsv parse csvText).1.numericFields.length)) ∧
      pf.color = DEFAULT_COLORS.getD (i % DEFAULT_COLORS.length) "" ∧
      pf.dataType =
        if i < (parseCsv parse csvText).1.numericFields.length then "number"
        else "string") := by
  have hfst : (parseCsv parse csvText).1 = analyzeHeaders parse
      ((splitChar ',' ((splitChar '\n' (jsTrim csvText)).headD "")).map jsTrim)
      ((splitChar '\n' (jsTrim csvText)).drop 1) := rfl
  have hsnd : (parseCsv parse csvText).2 = makePlotFields (parseCsv parse csvText).1 := rfl
  have hnd : ((splitChar ',' ((splitChar '\n' (jsTrim csvText)).headD "")).map jsTrim).Nodup := by
    rw [hfst, analyzeHeaders_headers] at hnodup
    exact hnodup
  have hdist := analyzeHeaders_numeric_distinct parse
    ((splitChar ',' ((splitChar '\n' (jsTrim csvText)).headD "")).map jsTrim)
    ((splitChar '\n' (jsTrim csvText)).drop 1) hnd
  rw [← hfst] at hdist
  obtain ⟨hkeys, hidx⟩ := makePlotFields_spec (parseCsv parse csvText).1 hdist
  have hsub := analyzeHeaders_sublists parse
    ((splitChar ',' ((splitChar '\n' (jsTrim csvText)).headD "")).map jsTrim)
    ((splitChar '\n' (jsTrim csvText)).drop 1)
  rw [← hfst] at hsub
  have hhd : (parseCsv parse csvText).1.headers =
      ((splitChar ',' ((splitChar '\n' (jsTrim csvText)).headD "")).map jsTrim) := by
    rw [hfst, analyzeHeaders_headers]
  refine ⟨by rw [hsnd]; exact hkeys, ?_, ?_,
    fun i pf h => hidx i pf (by rw [← hsnd]; exact h)⟩
  · rw [hhd]
    exact hsub.1
  · rw [hhd]
    exact hsub.2

/-- Witness for the amended C9 on the two-column input `t,s` / `1,a`. -/
theorem parseCsv_plotFields_witness :
    (parseCsv jsParseFloatFinite "t,s\n1,a").2.map PlotField.key =
      (parseCsv jsParseFloatFinite "t,s\n1,a").1.numericFields ++
        (parseCsv jsParseFloatFinite "t,s\n1,a").1.categoricalFields :=
  (parseCsv_plotFields_spec jsParseFloatFinite "t,s\n1,a" (by decide)).1

/-- C10: on a state whose `dataBounds` were never set (the fresh state has
none, and `emitZoom`/`clearZoom` never change them), `emitZoom` stores exactly
the requested range with no clamping; clamping applies only once
`setDataBounds` has set bounds. -/
theorem emitZoom_unclamped_without_bounds :
    initialSyncState.dataBounds = none ∧
    (∀ s r, (emitZoom s r).dataBounds = s.dataBounds) ∧
    (∀ s, (clearZoom s).dataBounds = s.dataBounds) ∧
    (∀ s r, s.dataBounds = none → getCurrentZoom (emitZoom s r) = some r) ∧
    (∀ s b r, s.dataBounds = some b →
      getCurrentZoom (emitZoom s r) =
        some ⟨max r.start b.start, min r.stop b.stop⟩) := by
  refine ⟨rfl, fun s r => ?_, fun s => rfl, fun s r h => ?_, fun s b r h => ?_⟩
  · cases h : s.dataBounds <;> simp [emitZoom, h]
  · simp [emitZoom, getCurrentZoom, h]
  · simp [emitZoom, getCurrentZoom, h]

/-- Witness for C10: a state with no bounds stores the request `[1, 2]`
verbatim. -/
theorem emitZoom_unclamped_without_bounds_witness :
    getCurrentZoom (emitZoom ⟨none, some ⟨3, 4⟩⟩ ⟨1, 2⟩) = some ⟨1, 2⟩ :=
  emitZoom_unclamped_without_bounds.2.2.2.1 ⟨none, some ⟨3, 4⟩⟩ ⟨1, 2⟩ rfl

end CsvPlotter
